import Mathlib

/-!
Verification of `maec_to_stix/indicator_extractor/indicator_filter.py`.

The Python module defines `IndicatorFilter`, whose methods
`_contraindicator_check`, `_whitelist_test`, `_prune_object_properties`,
`_required_property_check` and `prune_objects` filter object-history
entries and prune their property trees against a path-keyed
configuration.  This file gives a shallow embedding of those functions
and proves/refutes the claims about them.

Modelling conventions:
* A Python property value (string / number / dict / list) is a `PTree`;
  scalars carry their `str()` form directly, so `str(value)` is the
  identity on the carried string.
* Python dicts are association lists (`List (String × _)`) in iteration
  order with distinct keys; `dict.keys()` iteration is list iteration.
* `re.match pattern s` (start-anchored regex matching, from the Python
  standard library, external to this repository) is abstracted as a
  boolean parameter `rmatch : String → String → Bool`.
* Python `s.split("/")` is `split_slash` (same semantics, implemented by
  structural recursion on the character list so that it computes).
* A raised exception (`AttributeError` from iterating a non-mapping list
  element, `IndexError` from `split_key[0]` on an emptied list) is the
  `none` value of an `Option` result.
* `parent_key = None` and `parent_key = ""` are indistinguishable under
  Python truthiness tests, so the parent key is a `String` with `""`
  standing for "absent".
-/

namespace IndicatorFilter

/-- A nested Python property value: a scalar (string or number, carried
as its `str()` form), a dict, or a list. -/
inductive PTree where
  | scalar (s : String)
  | dict (entries : List (String × PTree))
  | list (items : List PTree)

/-- A property specification: a Python dict mapping "/"-separated
property paths to lists of whitelist regex patterns
(`supported_properties` in the source). -/
abbrev Spec := List (String × List String)

/-- Split a list of characters at every occurrence of `sep`
(accumulator holds the current ongoing segment). -/
def split_chars (sep : Char) : List Char → List Char → List (List Char)
  | [], acc => [acc]
  | c :: cs, acc =>
    if c == sep then acc :: split_chars sep cs []
    else split_chars sep cs (acc ++ [c])

/-- Python's `s.split("/")`: e.g. `"a/b" ↦ ["a","b"]`, `"" ↦ [""]`. -/
def split_slash (s : String) : List String :=
  (split_chars '/' s.toList []).map String.mk

/-- The `updated_key` computation of `_prune_object_properties`
(lines 60–63): `parent_key + "/" + property_name` when a parent key is
set, else the property name itself. -/
def child_key (pk k : String) : String :=
  if pk != "" then pk ++ "/" ++ k else k

/-- Test whether `needle` is an initial segment of `hay`. -/
def starts_with : List Char → List Char → Bool
  | [], _ => true
  | _ :: _, [] => false
  | a :: as, b :: bs => a == b && starts_with as bs

/-- Test whether `needle` occurs as a contiguous sublist of `hay`. -/
def substr_at : List Char → List Char → Bool
  | n, [] => n.isEmpty
  | n, c :: cs => starts_with n (c :: cs) || substr_at n cs

/-- Python's `needle in hay` for strings: substring containment
(the empty string is contained in everything). -/
def substr_in (needle hay : String) : Bool :=
  substr_at needle.toList hay.toList

/-- Embedding of `IndicatorFilter._whitelist_test` (lines 47–53): test an element
value against a list of whitelisted patterns; return `false` as soon as
some pattern `re.match`es the stringified value, else `true` (also on an
empty pattern list, where the Python `if whitelist:` guard skips the
loop). -/
def whitelist_test (rmatch : String → String → Bool) (element_value : String) :
    List String → Bool
  | [] => true
  | p :: rest =>
    if rmatch p element_value then false else whitelist_test rmatch element_value rest

/-- The "corner case" step of lines 81–82: `split_key.pop()` when the
last segment is literally `"value"`. -/
def drop_value (l : List String) : List String :=
  if l.getLast? == some "value" then l.dropLast else l

/-- The candidate loop of `_prune_object_properties` for a nested scalar
(lines 74–93).  The mutable state is `split_key` (which the source pops
in place, so pops accumulate across candidates) and whether the property
has been added to `pruned_dict`.  `none` models the `IndexError` raised
by `split_key[0]` once the list has been popped empty. -/
def candidate_loop (rmatch : String → String → Bool) (value : String) :
    Spec → List String → Bool → Option Bool
  | [], _, added => some added
  | (object_path, wl) :: rest, split_key, added =>
    match split_key with
    | [] => none
    | root :: _ =>
      let split_object_path := split_slash object_path
      if root == split_object_path.headD "" then
        let split_key' := drop_value split_key
        let m := (split_key'.drop 1).all fun seg => (split_object_path.drop 1).contains seg
        candidate_loop rmatch value rest split_key'
          (added || (m && whitelist_test rmatch value wl))
      else
        candidate_loop rmatch value rest split_key added

mutual

/-- Embedding of `IndicatorFilter._prune_object_properties` (lines 55–107) on the
entries of `object_dict`: return the `pruned_dict` association list, or
`none` if the run raises.  Entries are processed in iteration order and
each contributes zero or one key to the result. -/
def prune_object_properties (rmatch : String → String → Bool) (spec : Spec)
    (pk : String) : List (String × PTree) → Option (List (String × PTree))
  | [] => some []
  | (k, v) :: rest =>
    match prune_property rmatch spec pk k v,
          prune_object_properties rmatch spec pk rest with
    | some es, some r => some (es ++ r)
    | _, _ => none

/-- The body of the per-property loop of `_prune_object_properties` for
one `(property_name, property_value)` entry: the scalar branch
(lines 65–93), the dict branch (lines 95–99) and the list branch
(lines 101–106). -/
def prune_property (rmatch : String → String → Bool) (spec : Spec) (pk k : String) :
    PTree → Option (List (String × PTree))
  | .scalar s =>
    if pk == "" then
      match spec.lookup k with
      | some wl => some (if whitelist_test rmatch s wl then [(k, .scalar s)] else [])
      | none => some []
    else
      match candidate_loop rmatch s spec (split_slash pk ++ [k]) false with
      | none => none
      | some added => some (if added then [(k, .scalar s)] else [])
  | .dict d =>
    match prune_object_properties rmatch spec (child_key pk k) d with
    | none => none
    | some r => some (if r.isEmpty then [] else [(k, .dict r)])
  | .list items =>
    match prune_list_items rmatch spec (child_key pk k) items with
    | none => none
    | some ps =>
      some (if !ps.isEmpty && !ps.any List.isEmpty
            then [(k, .list (ps.map PTree.dict))] else [])

/-- The inner loop of the list branch (lines 102–104): prune every list
item with the same updated key.  A non-dict item makes the recursive
call iterate a non-mapping (`AttributeError`), modelled as `none`. -/
def prune_list_items (rmatch : String → String → Bool) (spec : Spec) (pk : String) :
    List PTree → Option (List (List (String × PTree)))
  | [] => some []
  | item :: rest =>
    match item with
    | .dict d =>
      match prune_object_properties rmatch spec pk d,
            prune_list_items rmatch spec pk rest with
      | some r, some rs => some (r :: rs)
      | _, _ => none
    | _ => none

end

/-- The configuration schema for one supported object type:
the `required`, `optional` and `mutually_exclusive` property specs. -/
structure ObjectTypeSchema where
  required : Spec
  optional : Spec
  mutually_exclusive : Spec

/-- The parsed configuration (`self.config`): contraindicator
substrings, modifier substrings, and the per-type schemas
(`supported_objects`). -/
structure Config where
  contraindicators : List String
  modifiers : List String
  supported_objects : List (String × ObjectTypeSchema)

/-- An `ObjectHistoryEntry`: the wrapped object's id, its type tag
(`object.properties._XSI_TYPE`), its property tree
(`object.properties.to_dict()`), and the derived action context
(a list of `(action name, association type)` pairs). -/
structure HistoryEntry where
  object_id : String
  xsi_type : String
  props : List (String × PTree)
  action_context : List (String × String)

/-- The loop of `_contraindicator_check` (lines 29–43): iterate the
action context with the accumulated `contraindication` flag, breaking
once it is set.  A pair with both components non-empty sets the flag if
the action name contains a contraindicator substring, or contains a
modifier substring while the association type is `"input"`. -/
def contraindicator_loop (cfg : Config) :
    List (String × String) → Bool → Bool
  | [], contraindication => contraindication
  | context_entry :: rest, contraindication =>
    if contraindication then contraindication
    else
      let action_name := context_entry.1
      let association_type := context_entry.2
      let contraindication' :=
        if action_name != "" && association_type != "" then
          (cfg.contraindicators.any fun con => substr_in con action_name) ||
            (cfg.modifiers.any fun m =>
              substr_in m action_name && association_type == "input")
        else contraindication
      contraindicator_loop cfg rest contraindication'

/-- Embedding of `IndicatorFilter._contraindicator_check` (lines 22–45). -/
def contraindicator_check (cfg : Config) (entry : HistoryEntry) : Bool :=
  contraindicator_loop cfg entry.action_context false

mutual

/-- Modelled from the spec: `ConfigParser.flatten_dict` lives in
`config_parser.py`, which is not among the sources.  Per §4.3/§6 of the
specification it converts a nested property tree into a sequence of
leaf entries, recursively descending mappings and sequences, emitting
one leaf per scalar reached, and using accumulated path context so that
leaves from different branches count separately. -/
def flatten_dict (pk : String) : List (String × PTree) → List (String × String)
  | [] => []
  | (k, v) :: rest => flatten_value (child_key pk k) v ++ flatten_dict pk rest

/-- Modelled from the spec: flattening of a single property value
(see `flatten_dict`). -/
def flatten_value (pk : String) : PTree → List (String × String)
  | .scalar s => [(pk, s)]
  | .dict d => flatten_dict pk d
  | .list items => flatten_items pk 0 items

/-- Modelled from the spec: flattening of the items of a sequence, with
the item index added to the path context (see `flatten_dict`). -/
def flatten_items (pk : String) (i : Nat) : List PTree → List (String × String)
  | [] => []
  | item :: rest =>
    flatten_value (pk ++ "[" ++ toString i ++ "]") item ++ flatten_items pk (i + 1) rest

end

/-- Embedding of `IndicatorFilter._required_property_check` (lines 109–124): prune
the object's properties against the `required` spec and compare the
flattened leaf count with the number of required paths; when the
`mutually_exclusive` spec is non-empty, additionally prune against it
and demand exactly one surviving top-level key. -/
def required_property_check (rmatch : String → String → Bool)
    (props : List (String × PTree)) (conf : ObjectTypeSchema) : Option Bool :=
  match prune_object_properties rmatch conf.required "" props with
  | none => none
  | some pruned_properties =>
    let properties_found :=
      if (flatten_dict "" pruned_properties).length != conf.required.length
      then false else true
    if conf.mutually_exclusive.isEmpty then some properties_found
    else
      match prune_object_properties rmatch conf.mutually_exclusive "" props with
      | none => none
      | some mutually_exclusive_pruned =>
        some (if mutually_exclusive_pruned.length != 1 then false
              else properties_found)

/-- Python dict assignment `d[k] = v`: overwrite the value at `k` if the
key is present, else append the new binding. -/
def dict_set {α : Type} (d : List (String × α)) (k : String) (v : α) :
    List (String × α) :=
  if d.any (fun p => p.1 == k) then
    d.map fun p => if p.1 == k then (k, v) else p
  else d ++ [(k, v)]

/-- Python `d1.update(d2)`: fold dict assignment of all of `d2`'s
bindings over `d1` (later bindings win). -/
def dict_update {α : Type} (d₁ d₂ : List (String × α)) : List (String × α) :=
  d₂.foldl (fun d p => dict_set d p.1 p.2) d₁

/-- The `full_properties` dict of `prune_objects` (lines 150–153): an
empty dict updated in turn with the `required`, `optional` and
`mutually_exclusive` specs. -/
def full_properties (conf : ObjectTypeSchema) : Spec :=
  dict_update (dict_update (dict_update [] conf.required) conf.optional)
    conf.mutually_exclusive

/-- The accepted-entry transformation of `prune_objects` (lines
154–158): prune the properties against the full spec, set the
`"xsi:type"` key to the original type tag, and replace the entry's
object by one carrying the pruned properties. -/
def accept_entry (rmatch : String → String → Bool) (conf : ObjectTypeSchema)
    (entry : HistoryEntry) : Option HistoryEntry :=
  match prune_object_properties rmatch (full_properties conf) "" entry.props with
  | none => none
  | some full_pruned_properties =>
    some { entry with
           props := dict_set full_pruned_properties "xsi:type"
             (PTree.scalar entry.xsi_type) }

/-- Embedding of `IndicatorFilter.prune_objects` (lines 126–162): iterate the
candidate entries; for each supported, non-contraindicated entry that
passes the required-property check, prune against the full property set
and append the updated entry to the final list. -/
def prune_objects (rmatch : String → String → Bool) (cfg : Config) :
    List HistoryEntry → Option (List HistoryEntry)
  | [] => some []
  | entry :: rest =>
    match cfg.supported_objects.lookup entry.xsi_type with
    | some object_type_conf =>
      if !contraindicator_check cfg entry then
        match required_property_check rmatch entry.props object_type_conf with
        | none => none
        | some true =>
          match accept_entry rmatch object_type_conf entry with
          | none => none
          | some entry' =>
            match prune_objects rmatch cfg rest with
            | none => none
            | some out => some (entry' :: out)
        | some false => prune_objects rmatch cfg rest
      else prune_objects rmatch cfg rest
    | none => prune_objects rmatch cfg rest

/-- The state of the caller's input list after `prune_objects` returns:
the source mutates accepted entries in place (`entry.object = ...`,
line 159), so accepted entries are replaced and all other entries are
left untouched. -/
def prune_objects_post (rmatch : String → String → Bool) (cfg : Config) :
    List HistoryEntry → Option (List HistoryEntry)
  | [] => some []
  | entry :: rest =>
    match cfg.supported_objects.lookup entry.xsi_type with
    | some object_type_conf =>
      if !contraindicator_check cfg entry then
        match required_property_check rmatch entry.props object_type_conf with
        | none => none
        | some true =>
          match accept_entry rmatch object_type_conf entry with
          | none => none
          | some entry' =>
            match prune_objects_post rmatch cfg rest with
            | none => none
            | some out => some (entry' :: out)
        | some false =>
          match prune_objects_post rmatch cfg rest with
          | none => none
          | some out => some (entry :: out)
      else
        match prune_objects_post rmatch cfg rest with
        | none => none
        | some out => some (entry :: out)
    | none =>
      match prune_objects_post rmatch cfg rest with
      | none => none
      | some out => some (entry :: out)

/-- The per-pair trigger condition of the contraindication check, as the
claim states it: both components non-empty, and the action name contains
a contraindicator substring, or contains a modifier substring while the
association type equals `"input"`. -/
def pair_contraindicated (cfg : Config) (p : String × String) : Bool :=
  (p.1 != "" && p.2 != "") &&
    ((cfg.contraindicators.any fun con => substr_in con p.1) ||
      (cfg.modifiers.any fun m => substr_in m p.1 && p.2 == "input"))

/-- The inclusion condition for a nested scalar as the claim (and §4.2
of the specification) states it: there is a spec path whose first
segment equals the current path's first segment such that, after
dropping the current path's last segment when it is literally
`"value"`, every remaining non-root segment is contained among the
candidate's non-root segments, and the whitelist test passes. -/
def claim_nested_included (rmatch : String → String → Bool) (spec : Spec)
    (pk k s : String) : Bool :=
  let split_key := split_slash pk ++ [k]
  let dropped := drop_value split_key
  spec.any fun pe =>
    let split_object_path := split_slash pe.1
    (split_key.headD "" == split_object_path.headD "") &&
      ((dropped.drop 1).all fun seg => (split_object_path.drop 1).contains seg) &&
      whitelist_test rmatch s pe.2

mutual

/-- The precondition of claim C10 on the entries of a property tree:
each element of every list-valued property is itself a mapping. -/
def lists_hold_dicts : List (String × PTree) → Bool
  | [] => true
  | (_, v) :: rest => lists_hold_dicts_value v && lists_hold_dicts rest

/-- The precondition of claim C10 on one property value
(see `lists_hold_dicts`). -/
def lists_hold_dicts_value : PTree → Bool
  | .scalar _ => true
  | .dict d => lists_hold_dicts d
  | .list items => lists_hold_dicts_items items

/-- The precondition of claim C10 on the items of a sequence
(see `lists_hold_dicts`). -/
def lists_hold_dicts_items : List PTree → Bool
  | [] => true
  | .dict d :: rest => lists_hold_dicts d && lists_hold_dicts_items rest
  | _ :: _ => false

end

/-- The per-entry outcome of `prune_objects` as the claim describes it:
`some none` when the entry is skipped (unsupported type tag,
contraindicated, or failed required-property check), `some (some e')`
when it is accepted with its object replaced by `e'`, and `none` when
the evaluation raises. -/
def entry_transform (rmatch : String → String → Bool) (cfg : Config)
    (entry : HistoryEntry) : Option (Option HistoryEntry) :=
  match cfg.supported_objects.lookup entry.xsi_type with
  | none => some none
  | some conf =>
    if contraindicator_check cfg entry then some none
    else
      match required_property_check rmatch entry.props conf with
      | none => none
      | some false => some none
      | some true =>
        match accept_entry rmatch conf entry with
        | none => none
        | some entry' => some (some entry')

mutual

/-- Relation `mem_sub k v' d`: some entry of `d` binds key `k` to a value of
which `v'` is a pruning. -/
def mem_sub (k : String) (v' : PTree) : List (String × PTree) → Prop
  | [] => False
  | (k₂, v) :: rest => (k₂ = k ∧ sub_value v' v) ∨ mem_sub k v' rest

/-- Relation `sub_dict r d`: every key of `r` is present in `d` with a value of
which the corresponding `r`-value is a pruning (claim C8's "pruning
never invents a key"). -/
def sub_dict : List (String × PTree) → List (String × PTree) → Prop
  | [], _ => True
  | (k, v') :: rest, d => mem_sub k v' d ∧ sub_dict rest d

/-- Relation `sub_value v' v`: `v'` is obtained from `v` by pruning: scalars are
kept verbatim, dicts entry-wise, lists pointwise with the same
length. -/
def sub_value : PTree → PTree → Prop
  | .scalar s', .scalar s => s' = s
  | .dict r, .dict d => sub_dict r d
  | .list ps, .list items => sub_items ps items
  | _, _ => False

/-- Relation `sub_items ps items`: pointwise pruning of sequence items. -/
def sub_items : List PTree → List PTree → Prop
  | [], [] => True
  | p :: ps, v :: vs => sub_value p v ∧ sub_items ps vs
  | _ :: _, [] => False
  | [], _ :: _ => False

end

/-- A retained scalar leaf is matched by some spec path: at top level
its key is a spec path whose whitelist test passes; nested, some spec
path has the same root segment, contains (order-independently) the
remaining segments of the current path after some number of trailing
`"value"` drops, and its whitelist test passes. -/
def leaf_justified (rmatch : String → String → Bool) (spec : Spec)
    (pk k s : String) : Prop :=
  if pk = "" then
    ∃ wl, spec.lookup k = some wl ∧ whitelist_test rmatch s wl = true
  else
    ∃ p wl, (p, wl) ∈ spec ∧
      (split_slash p).headD "" = (split_slash pk ++ [k]).headD "" ∧
      (∃ i, ((drop_value^[i] (split_slash pk ++ [k])).drop 1).all
          (fun seg => ((split_slash p).drop 1).contains seg) = true) ∧
      whitelist_test rmatch s wl = true

mutual

/-- Every scalar leaf of the (pruned) dict lies on a path matched by
some spec path, in the sense of `leaf_justified`. -/
def just_dict (rmatch : String → String → Bool) (spec : Spec) (pk : String) :
    List (String × PTree) → Prop
  | [] => True
  | (k, v) :: rest =>
    just_value rmatch spec pk k v ∧ just_dict rmatch spec pk rest

/-- Leaf justification for one property value (see `just_dict`). -/
def just_value (rmatch : String → String → Bool) (spec : Spec) (pk k : String) :
    PTree → Prop
  | .scalar s => leaf_justified rmatch spec pk k s
  | .dict r => just_dict rmatch spec (child_key pk k) r
  | .list ps => just_items rmatch spec (child_key pk k) ps

/-- Leaf justification for the items of a sequence, which share the
parent's updated key (see `just_dict`). -/
def just_items (rmatch : String → String → Bool) (spec : Spec) (pk : String) :
    List PTree → Prop
  | [] => True
  | .dict d :: rest =>
    just_dict rmatch spec pk d ∧ just_items rmatch spec pk rest
  | _ :: rest => just_items rmatch spec pk rest

end

/-! ## Theorems -/

/-- The loop of `_contraindicator_check` computes the disjunction of the
per-pair trigger over the remaining pairs. -/
theorem contraindicator_loop_or (cfg : Config) (l : List (String × String)) (c : Bool) :
    contraindicator_loop cfg l c = (c || l.any (pair_contraindicated cfg)) := by
  induction l generalizing c with
  | nil => simp [contraindicator_loop]
  | cons p rest ih =>
    cases c with
    | true => simp [contraindicator_loop]
    | false =>
      simp only [contraindicator_loop, Bool.false_eq_true, if_false]
      rw [ih]
      cases hcond : (p.1 != "" && p.2 != "") <;>
        simp [pair_contraindicated, hcond]

/-- Claim C6: `_whitelist_test` returns `true` when the pattern list is
empty or absent, and otherwise returns `false` iff some pattern matches
the stringified value with start-anchored regular-expression matching —
a pattern match causes exclusion, not inclusion. -/
theorem whitelist_test_exclusion (rmatch : String → String → Bool) (v : String)
    (wl : List String) :
    whitelist_test rmatch v [] = true ∧
    (whitelist_test rmatch v wl = false ↔ ∃ p ∈ wl, rmatch p v = true) := by
  refine ⟨rfl, ?_⟩
  induction wl with
  | nil => simp [whitelist_test]
  | cons p rest ih =>
    cases h : rmatch p v <;> simp [whitelist_test, h, ih]

/-- Claim C5: `_contraindicator_check` returns `true` iff at least one
action-context pair with both components non-empty satisfies the
contraindicator-substring or (modifier-substring and
association = `"input"`) condition; the result is independent of pair
order, and it is `false` on an empty action context. -/
theorem contraindicator_check_or_law (cfg : Config) (e : HistoryEntry) :
    (contraindicator_check cfg e = e.action_context.any (pair_contraindicated cfg)) ∧
    (e.action_context = [] → contraindicator_check cfg e = false) ∧
    (∀ ctx', ctx'.Perm e.action_context →
      contraindicator_check cfg { e with action_context := ctx' } =
        contraindicator_check cfg e) := by
  have base : ∀ l, contraindicator_loop cfg l false = l.any (pair_contraindicated cfg) := by
    intro l; rw [contraindicator_loop_or]; simp
  refine ⟨base _, ?_, ?_⟩
  · intro h
    simp only [contraindicator_check, h, contraindicator_loop]
  · intro ctx' hp
    simp only [contraindicator_check]
    rw [base, base]
    cases hx : (e.action_context.any (pair_contraindicated cfg)) with
    | true =>
      rw [List.any_eq_true] at hx ⊢
      obtain ⟨x, hmem, hx⟩ := hx
      exact ⟨x, hp.mem_iff.mpr hmem, hx⟩
    | false =>
      rw [List.any_eq_false] at hx ⊢
      intro x hmem
      exact hx x (hp.mem_iff.mp hmem)

/-- Witness for claim C5's theorem at a concrete configuration and
entry. -/
theorem contraindicator_check_or_law_witness :
    (contraindicator_check ⟨["Delete"], ["Write"], []⟩
        ⟨"i", "t", [], [("DeleteFile", "output"), ("WriteFile", "input")]⟩ =
      [("DeleteFile", "output"), ("WriteFile", "input")].any
        (pair_contraindicated ⟨["Delete"], ["Write"], []⟩)) ∧
    contraindicator_check ⟨["Delete"], ["Write"], []⟩ ⟨"i", "t", [], []⟩ = false :=
  ⟨(contraindicator_check_or_law ⟨["Delete"], ["Write"], []⟩
      ⟨"i", "t", [], [("DeleteFile", "output"), ("WriteFile", "input")]⟩).1,
    (contraindicator_check_or_law ⟨["Delete"], ["Write"], []⟩
      ⟨"i", "t", [], []⟩).2.1 rfl⟩

/-- Claim C1 fails on the code: `split_key.pop()` (line 82) mutates
`split_key` in place inside the loop over candidate paths, so the
trailing-`"value"` drop fires once per root-matching candidate rather
than once per property.  With spec paths `a/c` and `a/b` and the tree
`a ↦ value ↦ value ↦ "x"`, the first candidate pops one `"value"` and
fails, the second pops the remaining `"value"` and matches vacuously, so
the leaf is kept — while the claim's once-dropped containment rule
matches no candidate (first conjunct vs second conjunct).  With the
single candidate `a/b` the same leaf is dropped (third conjunct), so
inclusion depends on how many candidates share the root. -/
theorem prune_value_pop_divergence :
    prune_object_properties (fun _ _ => false) [("a/c", []), ("a/b", [])] ""
      [("a", .dict [("value", .dict [("value", .scalar "x")])])] =
      some [("a", .dict [("value", .dict [("value", .scalar "x")])])] ∧
    claim_nested_included (fun _ _ => false) [("a/c", []), ("a/b", [])]
      "a/value" "value" "x" = false ∧
    prune_object_properties (fun _ _ => false) [("a/b", [])] ""
      [("a", .dict [("value", .dict [("value", .scalar "x")])])] = some [] :=
  ⟨rfl, rfl, rfl⟩

/-- Claim C10 fails on the code: on the tree `value ↦ value ↦ "x"`,
which contains no list at all (first conjunct), pruning against the
three spec paths `value/a`, `value/b`, `value/c` raises: the first two
root-matching candidates pop `split_key` empty and the third candidate's
`split_key[0]` (line 77) raises `IndexError` (second conjunct).  So the
all-list-elements-are-mappings precondition does not make the function
reach its return.  The last two conjuncts show the list error branch the
claim describes: a list containing a scalar element raises, and such a
tree violates the precondition. -/
theorem prune_totality_divergence :
    lists_hold_dicts [("value", .dict [("value", .scalar "x")])] = true ∧
    prune_object_properties (fun _ _ => false)
      [("value/a", []), ("value/b", []), ("value/c", [])] ""
      [("value", .dict [("value", .scalar "x")])] = none ∧
    prune_object_properties (fun _ _ => false) [("a/b", [])] ""
      [("a", .list [.scalar "1"])] = none ∧
    lists_hold_dicts [("a", .list [.scalar "1"])] = false :=
  ⟨rfl, rfl, rfl, rfl⟩

/-- Claim C3: a key whose value is a sequence is contained in the
pruned result iff the element-wise pruned list is non-empty and no
element of it pruned to an empty result; if pruning any single element
yields an empty result, the whole sequence is dropped from the
parent. -/
theorem prune_sequence_all_or_nothing (rmatch : String → String → Bool)
    (spec : Spec) (pk k : String) (items : List PTree)
    (ps : List (List (String × PTree))) (r : List (String × PTree))
    (hps : prune_list_items rmatch spec (child_key pk k) items = some ps)
    (hr : prune_object_properties rmatch spec pk [(k, PTree.list items)] = some r) :
    (k ∈ r.map Prod.fst ↔ (ps ≠ [] ∧ ∀ p ∈ ps, p ≠ [])) ∧
    ((∃ p ∈ ps, p = []) → r = []) := by
  cases hc : (!ps.isEmpty && !ps.any List.isEmpty) with
  | true =>
    simp only [prune_object_properties, prune_property, hps, hc, if_true,
      List.append_nil, Option.some_inj] at hr
    subst hr
    simp only [Bool.and_eq_true, Bool.not_eq_true', List.isEmpty_eq_false,
      List.any_eq_false] at hc
    constructor
    · simp only [List.map_cons, List.map_nil, List.mem_singleton]
      exact ⟨fun _ => ⟨hc.1, fun p hp => by simpa using hc.2 p hp⟩, fun _ => by trivial⟩
    · rintro ⟨p, hp, rfl⟩
      exact absurd (hc.2 _ hp) (by simp)
  | false =>
    simp only [prune_object_properties, prune_property, hps, hc,
      Bool.false_eq_true, if_false, List.nil_append, Option.some_inj] at hr
    subst hr
    constructor
    · simp only [List.map_nil, List.not_mem_nil, false_iff]
      rintro ⟨hne, hall⟩
      rcases Bool.and_eq_false_iff.mp hc with h | h
      · simp at h
        exact hne h
      · simp at h
        exact hall [] h rfl
    · intro _; rfl

/-- Witness for claim C3's theorem at a concrete spec and tree. -/
theorem prune_sequence_all_or_nothing_witness :
    ("a" ∈ ([("a", PTree.list [.dict [("b", PTree.scalar "1")]])] :
        List (String × PTree)).map Prod.fst ↔
      (([[("b", PTree.scalar "1")]] :
          List (List (String × PTree))) ≠ [] ∧
        ∀ p ∈ ([[("b", PTree.scalar "1")]] :
          List (List (String × PTree))), p ≠ [])) ∧
    ((∃ p ∈ ([[("b", PTree.scalar "1")]] :
        List (List (String × PTree))), p = []) →
      ([("a", PTree.list [.dict [("b", PTree.scalar "1")]])] :
        List (String × PTree)) = []) :=
  prune_sequence_all_or_nothing (fun _ _ => false) [("a/b", [])] "" "a"
    [.dict [("b", PTree.scalar "1")]] [[("b", PTree.scalar "1")]]
    [("a", PTree.list [.dict [("b", PTree.scalar "1")]])] rfl rfl

/-- Claim C2: `_required_property_check` returns `true` iff the
flattened leaf count of the tree pruned against the required spec equals
the number of required paths (fewer or more both fail), and, when the
mutually-exclusive spec is non-empty, exactly one top-level key survives
pruning the full tree against it. -/
theorem required_property_check_law (rmatch : String → String → Bool)
    (props : List (String × PTree)) (conf : ObjectTypeSchema)
    (pr : List (String × PTree)) (b : Bool)
    (hpr : prune_object_properties rmatch conf.required "" props = some pr)
    (hb : required_property_check rmatch props conf = some b) :
    b = true ↔
      ((flatten_dict "" pr).length = conf.required.length ∧
        (conf.mutually_exclusive ≠ [] →
          ∃ mp, prune_object_properties rmatch conf.mutually_exclusive "" props =
              some mp ∧ mp.length = 1)) := by
  unfold required_property_check at hb
  rw [hpr] at hb
  cases hme : conf.mutually_exclusive.isEmpty with
  | true =>
    rw [hme] at hb
    simp only [if_true, Option.some_inj] at hb
    have hme' : conf.mutually_exclusive = [] := List.isEmpty_iff.mp hme
    subst hb
    cases hlen : ((flatten_dict "" pr).length != conf.required.length) <;>
      simp_all [bne_eq_false_iff_eq, bne_iff_ne]
  | false =>
    rw [hme] at hb
    simp only [if_false] at hb
    cases hmp : prune_object_properties rmatch conf.mutually_exclusive "" props with
    | none => rw [hmp] at hb; exact absurd hb (by simp)
    | some mp =>
      rw [hmp] at hb
      simp only [Bool.false_eq_true, if_false, Option.some_inj] at hb
      subst hb
      have hme' : conf.mutually_exclusive ≠ [] := by
        intro h; rw [h] at hme; simp at hme
      cases hlen : ((flatten_dict "" pr).length != conf.required.length) <;>
        cases hmplen : (mp.length != 1) <;>
          simp_all [bne_eq_false_iff_eq, bne_iff_ne]

/-- Witness for claim C2's theorem at a concrete schema and tree. -/
theorem required_property_check_law_witness :
    (true = true ↔
      ((flatten_dict "" [("a", PTree.scalar "x")]).length =
          ([("a", ([] : List String))] : Spec).length ∧
        (([("m1", ([] : List String)), ("m2", ([] : List String))] : Spec) ≠ [] →
          ∃ mp, prune_object_properties (fun _ _ => false)
              [("m1", ([] : List String)), ("m2", ([] : List String))] ""
              [("a", PTree.scalar "x"), ("m1", PTree.scalar "y")] = some mp ∧
            mp.length = 1))) :=
  required_property_check_law (fun _ _ => false)
    [("a", PTree.scalar "x"), ("m1", PTree.scalar "y")]
    ⟨[("a", [])], [], [("m1", []), ("m2", [])]⟩
    [("a", PTree.scalar "x")] true rfl rfl

/-- Claim C4: `prune_objects` returns exactly the subsequence of entries
(in input order, with no duplication and no reordering) whose per-entry
outcome is acceptance — the type tag is a key of `supported_objects`,
the entry is not contraindicated, and the required-property check passes
— with each accepted entry's object replaced by the pruning of its
properties against the union of the required, optional and
mutually-exclusive specs, and an `"xsi:type"` key set to the original
type tag (the transform packaged as `entry_transform`/`accept_entry`). -/
theorem prune_objects_filter_law (rmatch : String → String → Bool) (cfg : Config)
    (entries : List HistoryEntry) :
    prune_objects rmatch cfg entries =
      (entries.mapM (entry_transform rmatch cfg)).map (List.filterMap id) := by
  induction entries with
  | nil => rfl
  | cons e rest ih =>
    rw [List.mapM_cons]
    cases hl : cfg.supported_objects.lookup e.xsi_type with
    | none =>
      have het : entry_transform rmatch cfg e = some none := by
        simp [entry_transform, hl]
      rw [het]
      simp only [prune_objects, hl, ih]
      cases hm : rest.mapM (entry_transform rmatch cfg) <;> simp [hm]
    | some conf =>
      cases hci : contraindicator_check cfg e with
      | true =>
        have het : entry_transform rmatch cfg e = some none := by
          simp [entry_transform, hl, hci]
        rw [het]
        simp only [prune_objects, hl, hci, Bool.not_true, Bool.false_eq_true,
          if_false, ih]
        cases hm : rest.mapM (entry_transform rmatch cfg) <;> simp [hm]
      | false =>
        cases hrc : required_property_check rmatch e.props conf with
        | none =>
          have het : entry_transform rmatch cfg e = none := by
            simp [entry_transform, hl, hci, hrc]
          rw [het]
          simp [prune_objects, hl, hci, hrc]
        | some b =>
          cases b with
          | false =>
            have het : entry_transform rmatch cfg e = some none := by
              simp [entry_transform, hl, hci, hrc]
            rw [het]
            simp only [prune_objects, hl, hci, hrc, Bool.not_false, if_true, ih]
            cases hm : rest.mapM (entry_transform rmatch cfg) <;> simp [hm]
          | true =>
            cases hae : accept_entry rmatch conf e with
            | none =>
              have het : entry_transform rmatch cfg e = none := by
                simp [entry_transform, hl, hci, hrc, hae]
              rw [het]
              simp [prune_objects, hl, hci, hrc, hae]
            | some e' =>
              have het : entry_transform rmatch cfg e = some (some e') := by
                simp [entry_transform, hl, hci, hrc, hae]
              rw [het]
              simp only [prune_objects, hl, hci, hrc, hae, Bool.not_false,
                if_true, ih]
              cases hm : rest.mapM (entry_transform rmatch cfg) <;> simp [hm]

/-- Claim C9: per-entry evaluation is atomic — in the state of the
caller's list after `prune_objects`, every entry whose outcome is
rejection (unsupported type tag, contraindicated, or failed
required-property check) is left unchanged, and only accepted entries
have their object replaced (by exactly the accepted transform). -/
theorem prune_objects_post_frame (rmatch : String → String → Bool) (cfg : Config)
    (entries ps : List HistoryEntry)
    (h : prune_objects_post rmatch cfg entries = some ps) :
    List.Forall₂ (fun e pe =>
      (entry_transform rmatch cfg e = some none → pe = e) ∧
      (∀ e', entry_transform rmatch cfg e = some (some e') → pe = e')) entries ps := by
  induction entries generalizing ps with
  | nil =>
    simp only [prune_objects_post, Option.some_inj] at h
    subst h
    exact List.Forall₂.nil
  | cons e rest ih =>
    have reject_case :
        ∀ out, prune_objects_post rmatch cfg rest = some out → ps = e :: out →
          entry_transform rmatch cfg e = some none →
          List.Forall₂ (fun e pe =>
            (entry_transform rmatch cfg e = some none → pe = e) ∧
            (∀ e', entry_transform rmatch cfg e = some (some e') → pe = e'))
            (e :: rest) ps := by
      intro out hout hps het
      subst hps
      refine List.Forall₂.cons ⟨fun _ => rfl, fun e' h' => ?_⟩ (ih out hout)
      rw [het] at h'
      simp at h'
    simp only [prune_objects_post] at h
    cases hl : cfg.supported_objects.lookup e.xsi_type with
    | none =>
      rw [hl] at h
      cases hout : prune_objects_post rmatch cfg rest with
      | none => rw [hout] at h; exact absurd h (by simp)
      | some out =>
        rw [hout] at h
        simp only [Option.some_inj] at h
        exact reject_case out hout h.symm (by simp [entry_transform, hl])
    | some conf =>
      rw [hl] at h
      cases hci : contraindicator_check cfg e with
      | true =>
        rw [hci] at h
        simp only [Bool.not_true, Bool.false_eq_true, if_false] at h
        cases hout : prune_objects_post rmatch cfg rest with
        | none => rw [hout] at h; exact absurd h (by simp)
        | some out =>
          rw [hout] at h
          simp only [Option.some_inj] at h
          exact reject_case out hout h.symm (by simp [entry_transform, hl, hci])
      | false =>
        rw [hci] at h
        simp only [Bool.not_false, if_true] at h
        cases hrc : required_property_check rmatch e.props conf with
        | none => rw [hrc] at h; exact absurd h (by simp)
        | some b =>
          rw [hrc] at h
          cases b with
          | false =>
            cases hout : prune_objects_post rmatch cfg rest with
            | none => rw [hout] at h; exact absurd h (by simp)
            | some out =>
              rw [hout] at h
              simp only [Option.some_inj] at h
              exact reject_case out hout h.symm
                (by simp [entry_transform, hl, hci, hrc])
          | true =>
            cases hae : accept_entry rmatch conf e with
            | none => rw [hae] at h; exact absurd h (by simp)
            | some e' =>
              rw [hae] at h
              cases hout : prune_objects_post rmatch cfg rest with
              | none => rw [hout] at h; exact absurd h (by simp)
              | some out =>
                rw [hout] at h
                simp only [Option.some_inj] at h
                subst h
                have het : entry_transform rmatch cfg e = some (some e') := by
                  simp [entry_transform, hl, hci, hrc, hae]
                refine List.Forall₂.cons ⟨fun h' => ?_, fun e'' h' => ?_⟩ (ih out hout)
                · rw [het] at h'; simp at h'
                · rw [het] at h'
                  simp only [Option.some_inj] at h'
                  exact h'

/-- Witness for claim C9's theorem at a concrete configuration and
entry list (one accepted entry, one of unsupported type). -/
theorem prune_objects_post_frame_witness :
    List.Forall₂ (fun e pe =>
      (entry_transform (fun _ _ => false)
          ⟨[], [], [("FileObj", ⟨[("a", [])], [], []⟩)]⟩ e = some none → pe = e) ∧
      (∀ e', entry_transform (fun _ _ => false)
          ⟨[], [], [("FileObj", ⟨[("a", [])], [], []⟩)]⟩ e = some (some e') → pe = e'))
      [⟨"i1", "FileObj", [("a", PTree.scalar "x")], []⟩,
        ⟨"i2", "Other", [("a", PTree.scalar "x")], []⟩]
      [⟨"i1", "FileObj",
          [("a", PTree.scalar "x"), ("xsi:type", PTree.scalar "FileObj")], []⟩,
        ⟨"i2", "Other", [("a", PTree.scalar "x")], []⟩] :=
  prune_objects_post_frame (fun _ _ => false)
    ⟨[], [], [("FileObj", ⟨[("a", [])], [], []⟩)]⟩
    [⟨"i1", "FileObj", [("a", PTree.scalar "x")], []⟩,
      ⟨"i2", "Other", [("a", PTree.scalar "x")], []⟩]
    [⟨"i1", "FileObj",
        [("a", PTree.scalar "x"), ("xsi:type", PTree.scalar "FileObj")], []⟩,
      ⟨"i2", "Other", [("a", PTree.scalar "x")], []⟩] rfl

/-- Pruning distributes over appended dict entries. -/
theorem prune_object_properties_append (rmatch : String → String → Bool)
    (spec : Spec) (pk : String) (l₁ l₂ a b : List (String × PTree))
    (h₁ : prune_object_properties rmatch spec pk l₁ = some a)
    (h₂ : prune_object_properties rmatch spec pk l₂ = some b) :
    prune_object_properties rmatch spec pk (l₁ ++ l₂) = some (a ++ b) := by
  induction l₁ generalizing a with
  | nil =>
    simp only [prune_object_properties, Option.some_inj] at h₁
    subst h₁
    simpa using h₂
  | cons kv rest ih =>
    obtain ⟨k, v⟩ := kv
    cases hp : prune_property rmatch spec pk k v with
    | none => simp [prune_object_properties, hp] at h₁
    | some es =>
      cases hr : prune_object_properties rmatch spec pk rest with
      | none => simp [prune_object_properties, hp, hr] at h₁
      | some r' =>
        simp only [prune_object_properties, hp, hr, Option.some_inj] at h₁
        subst h₁
        rw [List.cons_append]
        simp only [prune_object_properties, hp, ih r' hr, List.append_assoc]

mutual

/-- Re-pruning a successfully pruned dict against the same spec yields
it unchanged (and raises no error). -/
theorem prune_object_properties_idem (rmatch : String → String → Bool)
    (spec : Spec) (pk : String) (d r : List (String × PTree))
    (h : prune_object_properties rmatch spec pk d = some r) :
    prune_object_properties rmatch spec pk r = some r := by
  cases d with
  | nil =>
    simp only [prune_object_properties, Option.some_inj] at h
    subst h
    rfl
  | cons kv rest =>
    obtain ⟨k, v⟩ := kv
    cases hp : prune_property rmatch spec pk k v with
    | none => simp [prune_object_properties, hp] at h
    | some es =>
      cases hr : prune_object_properties rmatch spec pk rest with
      | none => simp [prune_object_properties, hp, hr] at h
      | some r' =>
        simp only [prune_object_properties, hp, hr, Option.some_inj] at h
        subst h
        exact prune_object_properties_append rmatch spec pk es r' es r'
          (prune_property_idem rmatch spec pk k v es hp)
          (prune_object_properties_idem rmatch spec pk rest r' hr)

/-- Re-pruning the contribution of a single pruned property yields it
unchanged. -/
theorem prune_property_idem (rmatch : String → String → Bool) (spec : Spec)
    (pk k : String) (v : PTree) (es : List (String × PTree))
    (h : prune_property rmatch spec pk k v = some es) :
    prune_object_properties rmatch spec pk es = some es := by
  cases v with
  | scalar s =>
    by_cases hpk : pk = ""
    · have hpk' : (pk == "") = true := by simp [hpk]
      cases hlk : spec.lookup k with
      | none =>
        simp only [prune_property, hpk', if_true, hlk, Option.some_inj] at h
        subst h
        rfl
      | some wl =>
        cases hwt : whitelist_test rmatch s wl with
        | false =>
          simp only [prune_property, hpk', if_true, hlk, hwt,
            Bool.false_eq_true, if_false, Option.some_inj] at h
          subst h
          rfl
        | true =>
          simp only [prune_property, hpk', if_true, hlk, hwt, if_true,
            Option.some_inj] at h
          subst h
          simp [prune_object_properties, prune_property, hpk', hlk, hwt]
    · have hpk' : (pk == "") = false := by simp [hpk]
      cases hcl : candidate_loop rmatch s spec (split_slash pk ++ [k]) false with
      | none => simp [prune_property, hpk', hcl] at h
      | some added =>
        cases added with
        | false =>
          simp only [prune_property, hpk', Bool.false_eq_true, if_false, hcl,
            Option.some_inj] at h
          subst h
          rfl
        | true =>
          simp only [prune_property, hpk', Bool.false_eq_true, if_false, hcl,
            if_true, Option.some_inj] at h
          subst h
          simp [prune_object_properties, prune_property, hpk', hcl]
  | dict d =>
    cases hr : prune_object_properties rmatch spec (child_key pk k) d with
    | none => simp [prune_property, hr] at h
    | some r =>
      simp only [prune_property, hr, Option.some_inj] at h
      cases hre : r.isEmpty with
      | true =>
        rw [hre] at h
        simp only [if_true] at h
        subst h
        rfl
      | false =>
        rw [hre] at h
        simp only [Bool.false_eq_true, if_false] at h
        subst h
        have hidem := prune_object_properties_idem rmatch spec (child_key pk k) d r hr
        simp [prune_object_properties, prune_property, hidem, hre]
  | list items =>
    cases hps : prune_list_items rmatch spec (child_key pk k) items with
    | none => simp [prune_property, hps] at h
    | some ps =>
      simp only [prune_property, hps, Option.some_inj] at h
      cases hc : (!ps.isEmpty && !ps.any List.isEmpty) with
      | false =>
        rw [hc] at h
        simp only [Bool.false_eq_true, if_false] at h
        subst h
        rfl
      | true =>
        rw [hc] at h
        simp only [if_true] at h
        subst h
        have hidem := prune_list_items_idem rmatch spec (child_key pk k) items ps hps
        simp [prune_object_properties, prune_property, hidem, hc]

/-- Re-pruning the pruned items of a list yields them unchanged. -/
theorem prune_list_items_idem (rmatch : String → String → Bool) (spec : Spec)
    (pk : String) (items : List PTree) (ps : List (List (String × PTree)))
    (h : prune_list_items rmatch spec pk items = some ps) :
    prune_list_items rmatch spec pk (ps.map PTree.dict) = some ps := by
  cases items with
  | nil =>
    simp only [prune_list_items, Option.some_inj] at h
    subst h
    rfl
  | cons item rest =>
    cases item with
    | scalar s => simp [prune_list_items] at h
    | list l => simp [prune_list_items] at h
    | dict d =>
      cases hr : prune_object_properties rmatch spec pk d with
      | none => simp [prune_list_items, hr] at h
      | some r =>
        cases hrs : prune_list_items rmatch spec pk rest with
        | none => simp [prune_list_items, hr, hrs] at h
        | some rs =>
          simp only [prune_list_items, hr, hrs, Option.some_inj] at h
          subst h
          have h1 := prune_object_properties_idem rmatch spec pk d r hr
          have h2 := prune_list_items_idem rmatch spec pk rest rs hrs
          simp [prune_list_items, h1, h2]

end

/-- Claim C7: pruning is idempotent — pruning the result of pruning a
tree against a spec, again against the same spec, yields the same tree:
if `prune_object_properties` returns `some r` on a tree, it returns
`some r` on `r`. -/
theorem prune_idempotent (rmatch : String → String → Bool) (spec : Spec)
    (pk : String) (d r : List (String × PTree))
    (h : prune_object_properties rmatch spec pk d = some r) :
    prune_object_properties rmatch spec pk r = some r :=
  prune_object_properties_idem rmatch spec pk d r h

/-- Witness for claim C7's theorem at a concrete spec and tree. -/
theorem prune_idempotent_witness :
    prune_object_properties (fun _ _ => false) [("Properties/File_Name", [])] ""
      [("Properties", PTree.dict [("File_Name", PTree.scalar "evil.exe")])] =
      some [("Properties", PTree.dict [("File_Name", PTree.scalar "evil.exe")])] :=
  prune_idempotent (fun _ _ => false) [("Properties/File_Name", [])] ""
    [("Properties", PTree.dict [("File_Name", PTree.scalar "evil.exe")])]
    [("Properties", PTree.dict [("File_Name", PTree.scalar "evil.exe")])] rfl

/-- Popping a trailing `"value"` segment preserves the head of a list
that stays non-empty. -/
theorem drop_value_headD (l : List String) (h : drop_value l ≠ []) :
    (drop_value l).headD "" = l.headD "" := by
  cases hc : (l.getLast? == some "value") with
  | false => simp [drop_value, hc]
  | true =>
    simp only [drop_value, hc, if_true] at h ⊢
    cases l with
    | nil => simp at h
    | cons a t =>
      cases t with
      | nil => simp [List.dropLast] at h
      | cons b t' => simp [List.dropLast]

/-- Iterated popping preserves the head of a list that stays
non-empty. -/
theorem drop_value_iterate_headD (i : Nat) (l : List String)
    (h : drop_value^[i] l ≠ []) : (drop_value^[i] l).headD "" = l.headD "" := by
  induction i generalizing l with
  | zero => rfl
  | succ n ih =>
    rw [Function.iterate_succ_apply] at h ⊢
    rw [ih (drop_value l) h]
    apply drop_value_headD
    intro hempty
    rw [hempty, Function.iterate_fixed rfl] at h
    exact h rfl

/-- If the candidate loop of `_prune_object_properties` adds the
property, either it was already added, or some candidate path matched:
at the match, the (popped) state was some iterate of `drop_value` on the
initial segment list, still non-empty, the candidate's root equalled its
head, the once-more-popped state's non-root segments were contained in
the candidate's non-root segments, and the whitelist test passed. -/
theorem candidate_loop_some_true (rmatch : String → String → Bool) (s : String) :
    ∀ (cands : Spec) (sk : List String) (added : Bool),
    candidate_loop rmatch s cands sk added = some true →
    added = true ∨ ∃ p wl, (p, wl) ∈ cands ∧ ∃ i,
      drop_value^[i] sk ≠ [] ∧
      (split_slash p).headD "" = (drop_value^[i] sk).headD "" ∧
      ((drop_value^[i + 1] sk).drop 1).all
        (fun seg => ((split_slash p).drop 1).contains seg) = true ∧
      whitelist_test rmatch s wl = true := by
  intro cands
  induction cands with
  | nil =>
    intro sk added h
    left
    simpa [candidate_loop] using h
  | cons pe rest ih =>
    intro sk added h
    obtain ⟨p, wl⟩ := pe
    cases sk with
    | nil => simp [candidate_loop] at h
    | cons root tl =>
      simp only [candidate_loop] at h
      cases hroot : (root == (split_slash p).headD "") with
      | true =>
        rw [hroot] at h
        simp only [if_true] at h
        rcases ih (drop_value (root :: tl)) _ h with
          hadd | ⟨p', wl', hmem, i, hne, hhead, hcont, hwt⟩
        · cases added with
          | true => exact Or.inl rfl
          | false =>
            simp only [Bool.false_or, Bool.and_eq_true] at hadd
            refine Or.inr ⟨p, wl, List.mem_cons_self _ _, 0, by simp, ?_, ?_, hadd.2⟩
            · simpa using (eq_of_beq hroot).symm
            · simpa [Function.iterate_one] using hadd.1
        · refine Or.inr ⟨p', wl', List.mem_cons_of_mem _ hmem, i + 1, ?_, ?_, ?_, hwt⟩
          · rw [Function.iterate_succ_apply]; exact hne
          · rw [Function.iterate_succ_apply]; exact hhead
          · rw [Function.iterate_succ_apply]; exact hcont
      | false =>
        rw [hroot] at h
        simp only [Bool.false_eq_true, if_false] at h
        rcases ih (root :: tl) added h with
          hadd | ⟨p', wl', hmem, i, hne, hhead, hcont, hwt⟩
        · exact Or.inl hadd
        · exact Or.inr ⟨p', wl', List.mem_cons_of_mem _ hmem, i, hne, hhead, hcont, hwt⟩

/-- A sub-binding of a dict is a sub-binding of any right extension. -/
theorem mem_sub_append (k : String) (v' : PTree) (l₁ l₂ : List (String × PTree))
    (h : mem_sub k v' l₁) : mem_sub k v' (l₁ ++ l₂) := by
  induction l₁ with
  | nil => simp [mem_sub] at h
  | cons kv rest ih =>
    obtain ⟨k₂, v⟩ := kv
    simp only [mem_sub, List.cons_append] at h ⊢
    rcases h with h | h
    · exact Or.inl h
    · exact Or.inr (ih h)

/-- A sub-binding of a dict is a sub-binding of any left extension. -/
theorem mem_sub_cons (k : String) (v' : PTree) (e : String × PTree)
    (d : List (String × PTree)) (h : mem_sub k v' d) : mem_sub k v' (e :: d) := by
  obtain ⟨k₂, v⟩ := e
  simp only [mem_sub]
  exact Or.inr h

/-- The relation `sub_dict` is preserved by extending the reference dict on the
right. -/
theorem sub_dict_append_ref (r l₁ l₂ : List (String × PTree))
    (h : sub_dict r l₁) : sub_dict r (l₁ ++ l₂) := by
  induction r with
  | nil => simp [sub_dict]
  | cons kv rest ih =>
    obtain ⟨k, v'⟩ := kv
    simp only [sub_dict] at h ⊢
    exact ⟨mem_sub_append k v' l₁ l₂ h.1, ih h.2⟩

/-- The relation `sub_dict` is preserved by extending the reference dict on the
left. -/
theorem sub_dict_cons_ref (r : List (String × PTree)) (e : String × PTree)
    (d : List (String × PTree)) (h : sub_dict r d) : sub_dict r (e :: d) := by
  induction r with
  | nil => simp [sub_dict]
  | cons kv rest ih =>
    obtain ⟨k, v'⟩ := kv
    simp only [sub_dict] at h ⊢
    exact ⟨mem_sub_cons k v' e d h.1, ih h.2⟩

/-- Two prunings of a dict concatenate to a pruning of it. -/
theorem sub_dict_append (a b d : List (String × PTree))
    (ha : sub_dict a d) (hb : sub_dict b d) : sub_dict (a ++ b) d := by
  induction a with
  | nil => simpa using hb
  | cons kv rest ih =>
    obtain ⟨k, v'⟩ := kv
    simp only [sub_dict, List.cons_append] at ha ⊢
    exact ⟨ha.1, ih ha.2⟩

/-- Leaf justification concatenates. -/
theorem just_dict_append (rmatch : String → String → Bool) (spec : Spec)
    (pk : String) (a b : List (String × PTree))
    (ha : just_dict rmatch spec pk a) (hb : just_dict rmatch spec pk b) :
    just_dict rmatch spec pk (a ++ b) := by
  induction a with
  | nil => simpa using hb
  | cons kv rest ih =>
    obtain ⟨k, v⟩ := kv
    simp only [just_dict, List.cons_append] at ha ⊢
    exact ⟨ha.1, ih ha.2⟩

mutual

/-- Soundness of dict pruning: the result is an entry-wise pruning of
the input, and every retained scalar leaf is matched by some spec
path. -/
theorem prune_object_properties_sound (rmatch : String → String → Bool)
    (spec : Spec) (pk : String) (d r : List (String × PTree))
    (h : prune_object_properties rmatch spec pk d = some r) :
    sub_dict r d ∧ just_dict rmatch spec pk r := by
  cases d with
  | nil =>
    simp only [prune_object_properties, Option.some_inj] at h
    subst h
    exact ⟨by simp [sub_dict], by simp [just_dict]⟩
  | cons kv rest =>
    obtain ⟨k, v⟩ := kv
    cases hp : prune_property rmatch spec pk k v with
    | none => simp [prune_object_properties, hp] at h
    | some es =>
      cases hr : prune_object_properties rmatch spec pk rest with
      | none => simp [prune_object_properties, hp, hr] at h
      | some r' =>
        simp only [prune_object_properties, hp, hr, Option.some_inj] at h
        subst h
        obtain ⟨hsub₁, hjust₁⟩ := prune_property_sound rmatch spec pk k v es hp
        obtain ⟨hsub₂, hjust₂⟩ :=
          prune_object_properties_sound rmatch spec pk rest r' hr
        refine ⟨sub_dict_append es r' ((k, v) :: rest) ?_ ?_,
          just_dict_append rmatch spec pk es r' hjust₁ hjust₂⟩
        · simpa using sub_dict_append_ref es [(k, v)] rest hsub₁
        · exact sub_dict_cons_ref r' (k, v) rest hsub₂

/-- Soundness of the per-property branch: its contribution is a pruning
of the singleton input dict, and its scalar leaves are matched by some
spec path. -/
theorem prune_property_sound (rmatch : String → String → Bool) (spec : Spec)
    (pk k : String) (v : PTree) (es : List (String × PTree))
    (h : prune_property rmatch spec pk k v = some es) :
    sub_dict es [(k, v)] ∧ just_dict rmatch spec pk es := by
  cases v with
  | scalar s =>
    by_cases hpk : pk = ""
    · have hpk' : (pk == "") = true := by simp [hpk]
      cases hlk : spec.lookup k with
      | none =>
        simp only [prune_property, hpk', if_true, hlk, Option.some_inj] at h
        subst h
        exact ⟨by simp [sub_dict], by simp [just_dict]⟩
      | some wl =>
        cases hwt : whitelist_test rmatch s wl with
        | false =>
          simp only [prune_property, hpk', if_true, hlk, hwt,
            Bool.false_eq_true, if_false, Option.some_inj] at h
          subst h
          exact ⟨by simp [sub_dict], by simp [just_dict]⟩
        | true =>
          simp only [prune_property, hpk', if_true, hlk, hwt, if_true,
            Option.some_inj] at h
          subst h
          refine ⟨?_, ?_⟩
          · simp [sub_dict, mem_sub, sub_value]
          · simp only [just_dict, just_value, leaf_justified, if_pos hpk]
            exact ⟨⟨wl, hlk, hwt⟩, trivial⟩
    · have hpk' : (pk == "") = false := by simp [hpk]
      cases hcl : candidate_loop rmatch s spec (split_slash pk ++ [k]) false with
      | none => simp [prune_property, hpk', hcl] at h
      | some added =>
        cases added with
        | false =>
          simp only [prune_property, hpk', Bool.false_eq_true, if_false, hcl,
            Option.some_inj] at h
          subst h
          exact ⟨by simp [sub_dict], by simp [just_dict]⟩
        | true =>
          simp only [prune_property, hpk', Bool.false_eq_true, if_false, hcl,
            if_true, Option.some_inj] at h
          subst h
          refine ⟨?_, ?_⟩
          · simp [sub_dict, mem_sub, sub_value]
          · simp only [just_dict, just_value, leaf_justified, if_neg hpk]
            refine ⟨?_, trivial⟩
            rcases candidate_loop_some_true rmatch s spec
                (split_slash pk ++ [k]) false hcl with hadd | hex
            · exact absurd hadd (by simp)
            · obtain ⟨p, wl, hmem, i, hne, hhead, hcont, hwt⟩ := hex
              exact ⟨p, wl, hmem,
                hhead.trans (drop_value_iterate_headD i (split_slash pk ++ [k]) hne),
                ⟨i + 1, hcont⟩, hwt⟩
  | dict d =>
    cases hr : prune_object_properties rmatch spec (child_key pk k) d with
    | none => simp [prune_property, hr] at h
    | some r =>
      simp only [prune_property, hr, Option.some_inj] at h
      cases hre : r.isEmpty with
      | true =>
        rw [hre] at h
        simp only [if_true] at h
        subst h
        exact ⟨by simp [sub_dict], by simp [just_dict]⟩
      | false =>
        rw [hre] at h
        simp only [Bool.false_eq_true, if_false] at h
        subst h
        obtain ⟨hsub, hjust⟩ :=
          prune_object_properties_sound rmatch spec (child_key pk k) d r hr
        refine ⟨?_, ?_⟩
        · simp only [sub_dict, mem_sub, sub_value]
          exact ⟨Or.inl ⟨trivial, hsub⟩, trivial⟩
        · simp only [just_dict, just_value]
          exact ⟨hjust, trivial⟩
  | list items =>
    cases hps : prune_list_items rmatch spec (child_key pk k) items with
    | none => simp [prune_property, hps] at h
    | some ps =>
      simp only [prune_property, hps, Option.some_inj] at h
      cases hc : (!ps.isEmpty && !ps.any List.isEmpty) with
      | false =>
        rw [hc] at h
        simp only [Bool.false_eq_true, if_false] at h
        subst h
        exact ⟨by simp [sub_dict], by simp [just_dict]⟩
      | true =>
        rw [hc] at h
        simp only [if_true] at h
        subst h
        obtain ⟨hsub, hjust⟩ :=
          prune_list_items_sound rmatch spec (child_key pk k) items ps hps
        refine ⟨?_, ?_⟩
        · simp only [sub_dict, mem_sub, sub_value]
          exact ⟨Or.inl ⟨trivial, hsub⟩, trivial⟩
        · simp only [just_dict, just_value]
          exact ⟨hjust, trivial⟩

/-- Soundness of item-wise list pruning: pointwise pruning, with leaf
justification for every pruned item. -/
theorem prune_list_items_sound (rmatch : String → String → Bool) (spec : Spec)
    (pk : String) (items : List PTree) (ps : List (List (String × PTree)))
    (h : prune_list_items rmatch spec pk items = some ps) :
    sub_items (ps.map PTree.dict) items ∧ just_items rmatch spec pk (ps.map PTree.dict) := by
  cases items with
  | nil =>
    simp only [prune_list_items, Option.some_inj] at h
    subst h
    exact ⟨by simp [sub_items], by simp [just_items]⟩
  | cons item rest =>
    cases item with
    | scalar s => simp [prune_list_items] at h
    | list l => simp [prune_list_items] at h
    | dict d =>
      cases hr : prune_object_properties rmatch spec pk d with
      | none => simp [prune_list_items, hr] at h
      | some r =>
        cases hrs : prune_list_items rmatch spec pk rest with
        | none => simp [prune_list_items, hr, hrs] at h
        | some rs =>
          simp only [prune_list_items, hr, hrs, Option.some_inj] at h
          subst h
          obtain ⟨hsub₁, hjust₁⟩ :=
            prune_object_properties_sound rmatch spec pk d r hr
          obtain ⟨hsub₂, hjust₂⟩ := prune_list_items_sound rmatch spec pk rest rs hrs
          refine ⟨?_, ?_⟩
          · simp only [List.map_cons, sub_items, sub_value]
            exact ⟨hsub₁, hsub₂⟩
          · simp only [List.map_cons, just_items]
            exact ⟨hjust₁, hjust₂⟩

end

/-- Claim C8: pruning never invents content — every key (at every
nesting level) of the output of `_prune_object_properties` is present at
the corresponding position of the input tree (entry-wise for dicts,
pointwise for lists, scalars kept verbatim), and every retained scalar
leaf lies on a path that matched some spec path (same root segment,
containment of the remaining segments after trailing-`"value"` drops,
passing whitelist test). -/
theorem prune_never_invents (rmatch : String → String → Bool) (spec : Spec)
    (pk : String) (d r : List (String × PTree))
    (h : prune_object_properties rmatch spec pk d = some r) :
    sub_dict r d ∧ just_dict rmatch spec pk r :=
  prune_object_properties_sound rmatch spec pk d r h

/-- Witness for claim C8's theorem at a concrete spec and tree. -/
theorem prune_never_invents_witness :
    sub_dict [("Properties", PTree.dict [("File_Name", PTree.scalar "evil.exe")])]
      [("Properties", PTree.dict [("File_Name", PTree.scalar "evil.exe")]),
        ("Junk", PTree.scalar "z")] ∧
    just_dict (fun _ _ => false) [("Properties/File_Name", [])] ""
      [("Properties", PTree.dict [("File_Name", PTree.scalar "evil.exe")])] :=
  prune_never_invents (fun _ _ => false) [("Properties/File_Name", [])] ""
    [("Properties", PTree.dict [("File_Name", PTree.scalar "evil.exe")]),
      ("Junk", PTree.scalar "z")]
    [("Properties", PTree.dict [("File_Name", PTree.scalar "evil.exe")])] rfl

end IndicatorFilter
